import Mathlib

/- Verification development for the rust-chain repository (a single-node
proof-of-work blockchain with a UTXO transaction model).

Modelling conventions, mirroring the Rust source under src/:
- Byte strings (ByteBuf, Vec of u8, String contents) are lists of naturals;
  where byte validity matters it appears as an explicit hypothesis x < 256.
- External cryptographic digests (SHA-256 from the sha2 crate, RIPEMD-160
  from the ripemd crate) are oracle parameters: every definition that hashes
  takes the digest function as an argument, and theorems either hold for all
  oracles or exhibit a concrete computable oracle.
- The base-58 codec of the bs58 crate (Bitcoin alphabet) is modelled by its
  documented algorithm: one leading 1 character per leading zero byte, then
  the big-endian base-58 digits of the remaining value.
- bincode serialization of an Option field is a one-byte tag 0 or 1 followed
  by the payload; a ByteBuf payload is its 8-byte little-endian length then
  its bytes; u64 payloads are 8 bytes little-endian. Block fields serialize
  in declaration order, so the hash and nonce options are the final bytes.
- Rust panics (expect, panic) are modelled as Option results, none = abort.
- u64 addition wraps modulo 2 ^ 64 where the source adds u64 values.
- The sled tree holds block records under 32-byte hash keys and the tip
  marker under the reserved single-byte key l; the two key shapes are
  disjoint, so the tree is modelled as an association list of block records
  paired with an optional tip-marker value. Tree::iter visits every key of
  the tree, including the tip marker key.
- Chain iteration (the Iterator impl on Blockchain, which mutates the
  in-memory tip field) is bounded by explicit fuel; the source loops until
  the iterator is exhausted, so theorems supply enough fuel or take
  termination of the scan as a hypothesis.
-/

namespace RustChain

/-- Value of a little-endian digit list in base b. -/
def ofDigitsLE (b : Nat) : List Nat → Nat
  | [] => 0
  | d :: ds => d + b * ofDigitsLE b ds

/-- Little-endian base-b digits of n, fuel-bounded so that the recursion is
structural and kernel-reducible; fuel n always suffices. -/
def toDigitsGo (b : Nat) : Nat → Nat → List Nat
  | 0, _ => []
  | fuel + 1, n => if n = 0 then [] else n % b :: toDigitsGo b fuel (n / b)

/-- Little-endian base-b digits of n. -/
def toDigitsLE (b n : Nat) : List Nat := toDigitsGo b n n

theorem toDigitsGo_zero (b : Nat) : ∀ fuel, toDigitsGo b fuel 0 = [] := by
  intro fuel
  cases fuel with
  | zero => rfl
  | succ f => simp [toDigitsGo]

theorem ofDigitsLE_toDigitsGo (b : Nat) (hb : 2 ≤ b) :
    ∀ fuel n, n ≤ fuel → ofDigitsLE b (toDigitsGo b fuel n) = n := by
  intro fuel
  induction fuel with
  | zero =>
    intro n hn
    have : n = 0 := Nat.le_zero.mp hn
    subst this
    simp [toDigitsGo, ofDigitsLE]
  | succ f ih =>
    intro n hn
    by_cases h0 : n = 0
    · subst h0; simp [toDigitsGo, ofDigitsLE]
    · have hdiv : n / b ≤ f := by
        have hlt : n / b < n := Nat.div_lt_self (Nat.pos_of_ne_zero h0) (by omega)
        omega
      rw [toDigitsGo, if_neg h0, ofDigitsLE, ih _ hdiv]
      exact Nat.mod_add_div n b

theorem toDigitsGo_lt (b : Nat) (hb : 0 < b) :
    ∀ fuel n, ∀ d ∈ toDigitsGo b fuel n, d < b := by
  intro fuel
  induction fuel with
  | zero => intro n d hd; simp [toDigitsGo] at hd
  | succ f ih =>
    intro n d hd
    rw [toDigitsGo] at hd
    by_cases h0 : n = 0
    · simp [h0] at hd
    · rw [if_neg h0] at hd
      rcases List.mem_cons.mp hd with h | h
      · subst h; exact Nat.mod_lt _ hb
      · exact ih _ _ h

theorem toDigitsGo_getLast_ne_zero (b : Nat) (hb : 2 ≤ b) :
    ∀ fuel n, n ≤ fuel → n ≠ 0 → (toDigitsGo b fuel n).getLast? ≠ some 0 := by
  intro fuel
  induction fuel with
  | zero => intro n hn h0; omega
  | succ f ih =>
    intro n hn h0
    rw [toDigitsGo, if_neg h0]
    by_cases hdiv : n / b = 0
    · have hrest : toDigitsGo b f (n / b) = [] := by rw [hdiv]; exact toDigitsGo_zero b f
      rw [hrest]
      have hnb : n < b := (Nat.div_eq_zero_iff (by omega)).mp hdiv
      have : n % b = n := Nat.mod_eq_of_lt hnb
      simp [this, h0]
    · have hle : n / b ≤ f := by
        have hlt : n / b < n := Nat.div_lt_self (Nat.pos_of_ne_zero h0) (by omega)
        omega
      have hrest := ih (n / b) hle hdiv
      have hne : toDigitsGo b f (n / b) ≠ [] := by
        intro hcon
        have hv := ofDigitsLE_toDigitsGo b hb f (n / b) hle
        rw [hcon] at hv
        simp only [ofDigitsLE] at hv
        exact hdiv hv.symm
      obtain ⟨e, t, het⟩ := List.exists_cons_of_ne_nil hne
      rw [het, List.getLast?_cons_cons]
      rw [het] at hrest
      exact hrest

theorem ofDigitsLE_pos (b : Nat) (hb : 1 ≤ b) :
    ∀ L : List Nat, L ≠ [] → L.getLast? ≠ some 0 → 0 < ofDigitsLE b L := by
  intro L
  induction L with
  | nil => intro h; exact absurd rfl h
  | cons d rest ih =>
    intro _ hlast
    cases rest with
    | nil =>
      simp [List.getLast?] at hlast
      simp [ofDigitsLE]
      omega
    | cons e rest2 =>
      rw [List.getLast?_cons_cons] at hlast
      have := ih (List.cons_ne_nil _ _) hlast
      rw [ofDigitsLE]
      have : 1 ≤ b * ofDigitsLE b (e :: rest2) := Nat.one_le_iff_ne_zero.mpr (by positivity)
      omega

theorem toDigitsGo_ofDigitsLE (b : Nat) (hb : 2 ≤ b) :
    ∀ L : List Nat, (∀ d ∈ L, d < b) → L.getLast? ≠ some 0 →
    ∀ fuel, ofDigitsLE b L ≤ fuel → toDigitsGo b fuel (ofDigitsLE b L) = L := by
  intro L
  induction L with
  | nil =>
    intro _ _ fuel _
    show toDigitsGo b fuel 0 = []
    exact toDigitsGo_zero b fuel
  | cons d rest ih =>
    intro hlt hlast fuel hfuel
    have hd : d < b := hlt d (List.mem_cons_self d rest)
    cases rest with
    | nil =>
      simp [List.getLast?] at hlast
      have hval : ofDigitsLE b [d] = d := by simp [ofDigitsLE]
      rw [hval] at hfuel ⊢
      cases fuel with
      | zero => omega
      | succ f =>
        rw [toDigitsGo, if_neg hlast]
        have h1 : d % b = d := Nat.mod_eq_of_lt hd
        have h2 : d / b = 0 := Nat.div_eq_of_lt hd
        rw [h1, h2, toDigitsGo_zero]
    | cons e rest2 =>
      rw [List.getLast?_cons_cons] at hlast
      have hrestlt : ∀ x ∈ e :: rest2, x < b := fun x hx => hlt x (List.mem_cons_of_mem d hx)
      have hvpos : 0 < ofDigitsLE b (e :: rest2) :=
        ofDigitsLE_pos b (by omega) _ (List.cons_ne_nil _ _) hlast
      set v := ofDigitsLE b (e :: rest2) with hv
      have hval : ofDigitsLE b (d :: e :: rest2) = d + b * v := rfl
      rw [hval] at hfuel ⊢
      have hpos : 0 < d + b * v := by positivity
      cases fuel with
      | zero => omega
      | succ f =>
        rw [toDigitsGo, if_neg (by omega)]
        have h1 : (d + b * v) % b = d := by
          rw [Nat.add_mul_mod_self_left]
          exact Nat.mod_eq_of_lt hd
        have h2 : (d + b * v) / b = v := by
          rw [Nat.add_mul_div_left _ _ (by omega)]
          rw [Nat.div_eq_of_lt hd]
          omega
        rw [h1, h2]
        have hvle : v ≤ f := by nlinarith
        rw [ih hrestlt hlast f hvle]

theorem ofDigitsLE_replicate_zero (b : Nat) : ∀ z, ofDigitsLE b (List.replicate z 0) = 0 := by
  intro z
  induction z with
  | zero => rfl
  | succ n ih => simp [List.replicate, ofDigitsLE, ih]

theorem ofDigitsLE_append_zeros (b : Nat) :
    ∀ (L : List Nat) (z : Nat), ofDigitsLE b (L ++ List.replicate z 0) = ofDigitsLE b L := by
  intro L z
  induction L with
  | nil => simp [ofDigitsLE, ofDigitsLE_replicate_zero]
  | cons d rest ih => simp [ofDigitsLE, ih]

/-- Number of leading zero bytes of a byte string. -/
def leadZeros : List Nat → Nat
  | [] => 0
  | x :: xs => if x = 0 then leadZeros xs + 1 else 0

theorem leadZeros_decomp : ∀ bs : List Nat,
    bs = List.replicate (leadZeros bs) 0 ++ bs.drop (leadZeros bs) := by
  intro bs
  induction bs with
  | nil => rfl
  | cons x xs ih =>
    by_cases hx : x = 0
    · subst hx
      rw [leadZeros, if_pos rfl]
      simp [List.replicate]
      exact ih
    · rw [leadZeros, if_neg hx]
      simp

theorem head_drop_leadZeros : ∀ bs : List Nat, (bs.drop (leadZeros bs)).head? ≠ some 0 := by
  intro bs
  induction bs with
  | nil => simp
  | cons x xs ih =>
    by_cases hx : x = 0
    · subst hx
      rw [leadZeros, if_pos rfl]
      simpa using ih
    · rw [leadZeros, if_neg hx]
      simpa using hx

theorem leadZeros_replicate_append (z : Nat) (L : List Nat) (h : L.head? ≠ some 0) :
    leadZeros (List.replicate z 0 ++ L) = z := by
  induction z with
  | zero =>
    simp only [List.replicate, List.nil_append]
    cases L with
    | nil => rfl
    | cons x xs =>
      simp at h
      rw [leadZeros, if_neg h]
  | succ n ih =>
    simp only [List.replicate, List.cons_append]
    rw [leadZeros, if_pos rfl, ih]

/-- Big-endian value of a byte string, as BigUint.from_bytes_be computes it. -/
def beBytesToNat (bs : List Nat) : Nat := ofDigitsLE 256 bs.reverse

/-- ASCII codes of the Bitcoin base-58 alphabet used by the bs58 crate. -/
def b58Alpha : List Nat :=
  [49, 50, 51, 52, 53, 54, 55, 56, 57,
   65, 66, 67, 68, 69, 70, 71, 72,
   74, 75, 76, 77, 78,
   80, 81, 82, 83, 84, 85, 86, 87, 88, 89, 90,
   97, 98, 99, 100, 101, 102, 103, 104, 105, 106, 107,
   109, 110, 111, 112, 113, 114, 115, 116, 117, 118, 119, 120, 121, 122]

/-- Base-58 encoding: one 1 character (ASCII 49) per leading zero byte, then
the big-endian base-58 digits of the value, through the Bitcoin alphabet. -/
def b58encode (bs : List Nat) : List Nat :=
  List.replicate (leadZeros bs) 49 ++
    ((toDigitsLE 58 (beBytesToNat bs)).reverse.map (fun d => b58Alpha.getD d 0))

/-- Map base-58 characters back to digit values; none on a character outside
the alphabet (the bs58 decode error). -/
def decodeChars : List Nat → Option (List Nat)
  | [] => some []
  | c :: cs =>
    match List.findIdx? (fun a => a == c) b58Alpha with
    | none => none
    | some d => (decodeChars cs).map (fun ds => d :: ds)

/-- Base-58 decoding: one zero byte per leading zero digit, then the
big-endian bytes of the value of the digit string. -/
def b58decode (s : List Nat) : Option (List Nat) :=
  (decodeChars s).map (fun digits =>
    List.replicate (leadZeros digits) 0 ++
      (toDigitsLE 256 (ofDigitsLE 58 digits.reverse)).reverse)

theorem findIdx_alpha : ∀ d < 58,
    List.findIdx? (fun a => a == b58Alpha.getD d 0) b58Alpha = some d := by decide

theorem alpha_ne_one : ∀ d < 58, d ≠ 0 → b58Alpha.getD d 0 ≠ 49 := by decide

theorem decodeChars_map_alpha :
    ∀ D : List Nat, (∀ d ∈ D, d < 58) →
    decodeChars (D.map (fun d => b58Alpha.getD d 0)) = some D := by
  intro D
  induction D with
  | nil => intro _; rfl
  | cons d rest ih =>
    intro hlt
    have hd : d < 58 := hlt d (List.mem_cons_self d rest)
    have hrest : ∀ x ∈ rest, x < 58 := fun x hx => hlt x (List.mem_cons_of_mem d hx)
    simp only [List.map_cons, decodeChars, findIdx_alpha d hd, ih hrest]
    rfl

theorem decodeChars_replicate_one :
    ∀ (z : Nat) (rest : List Nat),
    decodeChars (List.replicate z 49 ++ rest) =
      (decodeChars rest).map (fun ds => List.replicate z 0 ++ ds) := by
  intro z
  induction z with
  | zero =>
    intro rest
    simp only [List.replicate, List.nil_append]
    cases h : decodeChars rest <;> simp
  | succ n ih =>
    intro rest
    have h49 : List.findIdx? (fun a => a == 49) b58Alpha = some 0 := by decide
    show decodeChars (49 :: (List.replicate n 49 ++ rest)) = _
    rw [decodeChars, h49, ih rest]
    cases h : decodeChars rest <;> simp [List.replicate]

theorem b58_roundtrip (bs : List Nat) (hb : ∀ x ∈ bs, x < 256) :
    b58decode (b58encode bs) = some bs := by
  set z := leadZeros bs with hz
  set rest := bs.drop (leadZeros bs) with hrest
  set n := beBytesToNat bs with hn
  have hD : ∀ d ∈ (toDigitsLE 58 n).reverse, d < 58 := by
    intro d hd
    exact toDigitsGo_lt 58 (by omega) n n d (List.mem_reverse.mp hd)
  have hdec : decodeChars (b58encode bs) =
      some (List.replicate z 0 ++ (toDigitsLE 58 n).reverse) := by
    rw [b58encode, ← hz, ← hn, decodeChars_replicate_one, decodeChars_map_alpha _ hD]
    rfl
  rw [b58decode, hdec]
  simp only [Option.map_some', Option.some.injEq]
  set D := (toDigitsLE 58 n).reverse with hDdef
  have hheadD : D.head? ≠ some 0 := by
    by_cases h0 : n = 0
    · rw [hDdef, h0]
      show ((toDigitsGo 58 0 0).reverse.head?) ≠ some 0
      rw [toDigitsGo_zero]
      simp
    · rw [hDdef, List.head?_reverse]
      exact toDigitsGo_getLast_ne_zero 58 (by omega) n n (Nat.le_refl n) h0
  have hlead : leadZeros (List.replicate z 0 ++ D) = z := leadZeros_replicate_append z D hheadD
  have hval : ofDigitsLE 58 (List.replicate z 0 ++ D).reverse = n := by
    rw [List.reverse_append, List.reverse_replicate, hDdef, List.reverse_reverse]
    rw [ofDigitsLE_append_zeros]
    exact ofDigitsLE_toDigitsGo 58 (by omega) n n (Nat.le_refl n)
  rw [hlead, hval]
  have hrestlt : ∀ x ∈ rest.reverse, x < 256 := by
    intro x hx
    exact hb x (List.drop_subset _ _ (List.mem_reverse.mp hx))
  have hrestlast : rest.reverse.getLast? ≠ some 0 := by
    rw [List.getLast?_reverse]
    exact head_drop_leadZeros bs
  have hnval : n = ofDigitsLE 256 rest.reverse := by
    rw [hn, beBytesToNat]
    conv_lhs => rw [leadZeros_decomp bs]
    rw [List.reverse_append, List.reverse_replicate, ofDigitsLE_append_zeros]
  have hbytes : toDigitsLE 256 n = rest.reverse := by
    rw [toDigitsLE, hnval]
    exact toDigitsGo_ofDigitsLE 256 (by omega) rest.reverse hrestlt hrestlast
      (ofDigitsLE 256 rest.reverse) (Nat.le_refl _)
  rw [hbytes, List.reverse_reverse]
  exact (leadZeros_decomp bs).symm

namespace PoW

def SHA_BITS : Nat := 256

def TARGET_BITS : Nat := 24

/-- The proof-of-work target, 1 shifted left by SHA_BITS - TARGET_BITS. -/
def target : Nat := 2 ^ (SHA_BITS - TARGET_BITS)

/-- Largest u64 value; the mining loop runs while nonce is strictly below it. -/
def U64MAX : Nat := 18446744073709551615

/-- Big-endian bytes of a u64 value, as u64::to_be_bytes. The divisors are
2 ^ 56, 2 ^ 48, 2 ^ 40, 2 ^ 32, 2 ^ 24, 2 ^ 16, 2 ^ 8 written as literals. -/
def u64be (n : Nat) : List Nat :=
  [n / 72057594037927936 % 256, n / 281474976710656 % 256, n / 1099511627776 % 256,
   n / 4294967296 % 256, n / 16777216 % 256, n / 65536 % 256, n / 256 % 256, n % 256]

/-- Little-endian bytes of a u64 value, as bincode writes u64 lengths. -/
def u64le (n : Nat) : List Nat :=
  [n % 256, n / 256 % 256, n / 65536 % 256, n / 16777216 % 256, n / 4294967296 % 256,
   n / 1099511627776 % 256, n / 281474976710656 % 256, n / 72057594037927936 % 256]

/-- Bytes hashed for a given nonce: the serialized block, then the big-endian
bytes of the difficulty constant, then the big-endian bytes of the nonce. -/
def prepare_data (blockBytes : List Nat) (nonce : Nat) : List Nat :=
  blockBytes ++ u64be TARGET_BITS ++ u64be nonce

/-- The mining loop of ProofOfWork::run from a given nonce, with fuel equal to
the number of remaining loop iterations; the Rust loop runs while
nonce < u64::MAX, so the top-level run uses fuel U64MAX from nonce 0. -/
def runFrom (sha : List Nat → List Nat) (blockBytes : List Nat) :
    Nat → Nat → Option (Nat × List Nat)
  | 0, _ => none
  | fuel + 1, nonce =>
    if beBytesToNat (sha (prepare_data blockBytes nonce)) < target then
      some (nonce, sha (prepare_data blockBytes nonce))
    else runFrom sha blockBytes fuel (nonce + 1)

/-- ProofOfWork::run over the serialized block bytes, with the digest function
as an oracle parameter. -/
def run (sha : List Nat → List Nat) (blockBytes : List Nat) : Option (Nat × List Nat) :=
  runFrom sha blockBytes U64MAX 0

/-- A block as the proof-of-work engine sees it: the serialized bytes of the
fields preceding the hash field (timestamp, payload, previous hash), plus the
optional hash and nonce fields, which bincode serializes last. -/
structure BlockB where
  content : List Nat
  hash : Option (List Nat)
  nonce : Option Nat
  deriving DecidableEq

/-- bincode bytes of an optional byte-string field: tag byte then 8-byte
little-endian length then the bytes. -/
def serOptBytes : Option (List Nat) → List Nat
  | none => [0]
  | some bs => 1 :: (u64le bs.length ++ bs)

/-- bincode bytes of an optional u64 field: tag byte then 8 bytes. -/
def serOptU64 : Option Nat → List Nat
  | none => [0]
  | some n => 1 :: u64le n

/-- bincode serialization of the whole block, hash and nonce fields included,
exactly what prepare_data feeds to the digest. -/
def serializeBlockB (b : BlockB) : List Nat :=
  b.content ++ serOptBytes b.hash ++ serOptU64 b.nonce

/-- ProofOfWork::validate: recompute the digest of the serialized block (in
its current state, hash and nonce fields included) with the stored nonce and
compare against the target; false when no nonce is stored. -/
def validate (sha : List Nat → List Nat) (b : BlockB) : Bool :=
  match b.nonce with
  | some n => decide (beBytesToNat (sha (prepare_data (serializeBlockB b) n)) < target)
  | none => false

/-- Block::new at the byte level: mine the block while its hash and nonce
fields are none; on success store the returned nonce and hash. -/
def BlockB.new (sha : List Nat → List Nat) (content : List Nat) : BlockB :=
  let b : BlockB := { content := content, hash := none, nonce := none }
  match run sha (serializeBlockB b) with
  | some (n, h) => { b with hash := some h, nonce := some n }
  | none => b

theorem runFrom_none (sha : List Nat → List Nat) (bb : List Nat) :
    ∀ fuel nonce,
    (∀ k, nonce ≤ k → k < nonce + fuel →
      ¬ beBytesToNat (sha (prepare_data bb k)) < target) →
    runFrom sha bb fuel nonce = none := by
  intro fuel
  induction fuel with
  | zero => intro nonce _; rfl
  | succ f ih =>
    intro nonce hfail
    rw [runFrom]
    rw [if_neg (hfail nonce (Nat.le_refl _) (by omega))]
    exact ih (nonce + 1) (fun k hk1 hk2 => hfail k (by omega) (by omega))

theorem runFrom_min (sha : List Nat → List Nat) (bb : List Nat) :
    ∀ fuel start n, start ≤ n → n < start + fuel →
    (∀ m, start ≤ m → m < n → ¬ beBytesToNat (sha (prepare_data bb m)) < target) →
    beBytesToNat (sha (prepare_data bb n)) < target →
    runFrom sha bb fuel start = some (n, sha (prepare_data bb n)) := by
  intro fuel
  induction fuel with
  | zero => intro start n h1 h2; omega
  | succ f ih =>
    intro start n h1 h2 hmin hn
    rw [runFrom]
    by_cases hs : start = n
    · subst hs
      rw [if_pos hn]
    · rw [if_neg (hmin start (Nat.le_refl _) (by omega))]
      exact ih (start + 1) n (by omega) (by omega) (fun m hm1 hm2 => hmin m (by omega) hm2) hn

/-- run returns the least successful nonce among those the loop actually
tries, which are the nonces strictly below u64::MAX. -/
theorem run_min (sha : List Nat → List Nat) (bb : List Nat) (n : Nat)
    (h1 : n < U64MAX)
    (hn : beBytesToNat (sha (prepare_data bb n)) < target)
    (hmin : ∀ m < n, ¬ beBytesToNat (sha (prepare_data bb m)) < target) :
    run sha bb = some (n, sha (prepare_data bb n)) :=
  runFrom_min sha bb U64MAX 0 n (Nat.zero_le n) (by omega)
    (fun m _ hm2 => hmin m hm2) hn

/-- run returns none as soon as every nonce strictly below u64::MAX fails,
even when the untried nonce u64::MAX itself would succeed. -/
theorem run_none (sha : List Nat → List Nat) (bb : List Nat)
    (h : ∀ n < U64MAX, ¬ beBytesToNat (sha (prepare_data bb n)) < target) :
    run sha bb = none :=
  runFrom_none sha bb U64MAX 0 (fun k _ hk2 => h k (by omega))

theorem beBytesToNat_u64be (n : Nat) : beBytesToNat (u64be n) = n % 18446744073709551616 := by
  simp only [beBytesToNat, u64be, List.reverse_cons, List.reverse_nil, List.nil_append,
    List.cons_append, List.append_nil, ofDigitsLE]
  omega

end PoW

/-- A transaction input: the referenced transaction id, the referenced output
index (none for coinbase), a signature placeholder and the raw public key. -/
structure TXInput where
  txid : List Nat
  vout : Option Nat
  signature : List Nat
  pub_key : List Nat
  deriving DecidableEq

/-- A transaction output: a u64 value and the locking public-key hash. -/
structure TXOutput where
  value : Nat
  pub_key_hash : List Nat
  deriving DecidableEq

/-- A transaction: content-derived id, inputs and outputs. -/
structure Transaction where
  id : List Nat
  vin : List TXInput
  vout : List TXOutput
  deriving DecidableEq

/-- A block of the chain store: timestamp, transactions, optional previous
hash, optional own hash and nonce. -/
structure Block where
  timestamp : Nat
  transactions : List Transaction
  previous_block_hash : Option (List Nat)
  hash : Option (List Nat)
  nonce : Option Nat
  deriving DecidableEq

/-- The blockchain handle: the in-memory tip buffer, and the sled tree split
into the hash-keyed block records and the value stored under the reserved
tip-marker key l (whose single-byte key never collides with a block hash). -/
structure Blockchain where
  tip : List Nat
  blocks : List (List Nat × Block)
  lval : Option (List Nat)
  deriving DecidableEq

/-- An elliptic-curve key pair, raw bytes only. -/
structure Wallet where
  public_key : List Nat
  private_key : List Nat
  deriving DecidableEq

/-- Wallet::hash_pub_key: RIPEMD-160 of SHA-256 of the public key, with both
digest functions as oracles. -/
def hash_pub_key (shaO ripemdO : List Nat → List Nat) (public_key : List Nat) : List Nat :=
  ripemdO (shaO public_key)

/-- Wallet::address: prepend the version byte 0 to the public-key hash,
append the first 4 bytes of the double SHA-256 checksum of the versioned
payload, and base-58 encode the result. -/
def Wallet.address (shaO ripemdO : List Nat → List Nat) (w : Wallet) : List Nat :=
  b58encode ((0 :: hash_pub_key shaO ripemdO w.public_key) ++
    (shaO (shaO (0 :: hash_pub_key shaO ripemdO w.public_key))).take 4)

/-- TXOutput::lock, decoding side: base-58 decode the address, strip the one
leading version byte and the four trailing checksum bytes. The source panics
when decoding fails or the slice bounds are invalid; both are none here. -/
def lockBytes (address : List Nat) : Option (List Nat) :=
  match b58decode address with
  | none => none
  | some pkh =>
    if 5 ≤ pkh.length then some ((pkh.drop 1).take (pkh.length - 5)) else none

/-- TXOutput::is_locked_with: compare the stored locking hash. -/
def TXOutput.is_locked_with (o : TXOutput) (pub_key_hash : List Nat) : Bool :=
  o.pub_key_hash == pub_key_hash

/-- TXOutput::lock as a state update on the output. -/
def TXOutput.lock (o : TXOutput) (address : List Nat) : Option TXOutput :=
  (lockBytes address).map (fun h => { o with pub_key_hash := h })

/-- Modelled from the spec: TXOutput::can_be_unlocked_with is called from
blockchain.rs but its definition is missing from src. Per the spec, an output
is unlockable by an owner when its locking datum (the stored public-key hash)
equals the owner datum passed to the scan. -/
def TXOutput.can_be_unlocked_with (o : TXOutput) (address : List Nat) : Bool :=
  o.pub_key_hash == address

/-- Modelled from the spec: TXInput::can_unlock_output_with is called from
blockchain.rs but its definition is missing from src. Per the spec, an input
can unlock an output for an owner when the public-key hash recomputed from
the carried public key equals the owner datum, as TXInput::uses_key does. -/
def TXInput.can_unlock_output_with (shaO ripemdO : List Nat → List Nat)
    (i : TXInput) (address : List Nat) : Bool :=
  hash_pub_key shaO ripemdO i.pub_key == address

/-- Transaction::is_coinbase: exactly one input with empty txid and absent
output index. -/
def Transaction.is_coinbase (tx : Transaction) : Bool :=
  match tx.vin with
  | [i] => i.txid == [] && i.vout == none
  | _ => false

/-- Lookup in the spent-outputs map from transaction id to output indices
(the HashMap get of the source, on an association list). -/
def mapGet (m : List (List Nat × List Nat)) (k : List Nat) : Option (List Nat) :=
  (m.find? (fun p => p.1 == k)).map (fun p => p.2)

/-- HashMap get_mut-push-or-insert of the source: append the index to the
entry of the id when present, otherwise insert a fresh singleton entry. -/
def mapInsertOrPush (m : List (List Nat × List Nat)) (k : List Nat) (v : Nat) :
    List (List Nat × List Nat) :=
  if (m.find? (fun p => p.1 == k)).isSome then
    m.map (fun p => if p.1 == k then (p.1, p.2 ++ [v]) else p)
  else m ++ [(k, [v])]

/-- Whether output index idx of the transaction with the given id is already
recorded as spent (the continue of the outputs loop). -/
def spentContains (spent : List (List Nat × List Nat)) (txid : List Nat) (idx : Nat) : Bool :=
  match mapGet spent txid with
  | some indices => indices.contains idx
  | none => false

/-- The outputs loop of find_unspent_txs for one transaction: skip outputs
already recorded as spent, and push one full copy of the transaction for
every remaining output unlockable by the owner. -/
def outLoop (address : List Nat) (tx : Transaction) (spent : List (List Nat × List Nat)) :
    List (Nat × TXOutput) → List Transaction → List Transaction
  | [], acc => acc
  | (idx, o) :: rest, acc =>
    if spentContains spent tx.id idx then outLoop address tx spent rest acc
    else if o.can_be_unlocked_with address then outLoop address tx spent rest (acc ++ [tx])
    else outLoop address tx spent rest acc

/-- The inputs loop of find_unspent_txs for one non-coinbase transaction:
record the referenced output of every input unlockable by the owner. The
source unwraps the input's output index with expect; reachable inputs of
non-coinbase transactions always carry one, so getD 0 stands in. -/
def inLoop (shaO ripemdO : List Nat → List Nat) (address : List Nat) :
    List TXInput → List (List Nat × List Nat) → List (List Nat × List Nat)
  | [], spent => spent
  | i :: rest, spent =>
    if i.can_unlock_output_with shaO ripemdO address then
      inLoop shaO ripemdO address rest (mapInsertOrPush spent i.txid (i.vout.getD 0))
    else inLoop shaO ripemdO address rest spent

/-- One transaction of the find_unspent_txs scan: outputs are checked against
the spent map recorded so far, then the inputs of a non-coinbase transaction
are recorded. -/
def processTx (shaO ripemdO : List Nat → List Nat) (address : List Nat) (tx : Transaction)
    (spent : List (List Nat × List Nat)) (acc : List Transaction) :
    List (List Nat × List Nat) × List Transaction :=
  (if tx.is_coinbase then spent else inLoop shaO ripemdO address tx.vin spent,
   outLoop address tx spent tx.vout.enum acc)

/-- The per-block break condition of find_unspent_txs: after each transaction
the loop over the block's transactions stops early when the block's previous
hash is present but empty. -/
def blockStop (b : Block) : Bool :=
  match b.previous_block_hash with
  | some ph => ph.length == 0
  | none => false

/-- One step of the Iterator impl on Blockchain: look the in-memory tip up in
the tree; on a hit, yield the block and move the tip to its previous hash
(or to the empty buffer when the previous hash is absent). -/
def bcNext (bc : Blockchain) : Option (Block × Blockchain) :=
  match bc.blocks.find? (fun p => p.1 == bc.tip) with
  | some p =>
    some (p.2, { bc with tip := match p.2.previous_block_hash with
                                | some ph => ph
                                | none => [] })
  | none => none

/-- The transactions loop of find_unspent_txs over one block. -/
def txLoop (shaO ripemdO : List Nat → List Nat) (address : List Nat) (stop : Bool) :
    List Transaction → List (List Nat × List Nat) → List Transaction →
    List (List Nat × List Nat) × List Transaction
  | [], spent, acc => (spent, acc)
  | tx :: rest, spent, acc =>
    match processTx shaO ripemdO address tx spent acc with
    | (s2, a2) => if stop then (s2, a2) else txLoop shaO ripemdO address stop rest s2 a2

/-- The block loop of find_unspent_txs, driven by the tip-mutating iterator
and bounded by fuel. -/
def futLoop (shaO ripemdO : List Nat → List Nat) (address : List Nat) :
    Nat → Blockchain → List (List Nat × List Nat) → List Transaction →
    List Transaction × Blockchain
  | 0, bc, _, acc => (acc, bc)
  | fuel + 1, bc, spent, acc =>
    match bcNext bc with
    | none => (acc, bc)
    | some (b, bc2) =>
      match txLoop shaO ripemdO address (blockStop b) b.transactions spent acc with
      | (s2, a2) => futLoop shaO ripemdO address fuel bc2 s2 a2

/-- Blockchain::find_unspent_txs; the returned Blockchain is the state the
method leaves behind (its for loop advances the in-memory tip). -/
def find_unspent_txs (shaO ripemdO : List Nat → List Nat) (fuel : Nat) (bc : Blockchain)
    (address : List Nat) : List Transaction × Blockchain :=
  futLoop shaO ripemdO address fuel bc [] []

/-- Blockchain::find_utxo: flatten the outputs of the unspent transactions
and keep those unlockable by the owner. -/
def find_utxo (shaO ripemdO : List Nat → List Nat) (fuel : Nat) (bc : Blockchain)
    (address : List Nat) : List TXOutput × Blockchain :=
  match find_unspent_txs shaO ripemdO fuel bc address with
  | (txs, bc2) =>
    ((txs.flatMap Transaction.vout).filter (fun o => o.can_be_unlocked_with address), bc2)

/-- Blockchain::balance_at: fold the u64 values of find_utxo, wrapping
modulo 2 ^ 64. -/
def balance_at (shaO ripemdO : List Nat → List Nat) (fuel : Nat) (bc : Blockchain)
    (address : List Nat) : Nat × Blockchain :=
  match find_utxo shaO ripemdO fuel bc address with
  | (f, bc2) => (f.foldl (fun acc o => (o.value + acc) % 18446744073709551616) 0, bc2)

/-- The outputs loop of find_spendable_outputs for one transaction; the Bool
marks the break of the outer loop once the target value is reached. -/
def fsoOuts (address : List Nat) (value : Nat) (txid : List Nat) :
    List (Nat × TXOutput) → Nat → List (List Nat × List Nat) →
    Nat × List (List Nat × List Nat) × Bool
  | [], all, m => (all, m, false)
  | (idx, o) :: rest, all, m =>
    if o.can_be_unlocked_with address && decide (all < value) then
      if value ≤ (all + o.value) % 18446744073709551616 then
        ((all + o.value) % 18446744073709551616, mapInsertOrPush m txid idx, true)
      else
        fsoOuts address value txid rest ((all + o.value) % 18446744073709551616)
          (mapInsertOrPush m txid idx)
    else fsoOuts address value txid rest all m

/-- The transactions loop of find_spendable_outputs. -/
def fsoTxs (address : List Nat) (value : Nat) :
    List Transaction → Nat → List (List Nat × List Nat) →
    Nat × List (List Nat × List Nat)
  | [], all, m => (all, m)
  | tx :: rest, all, m =>
    match fsoOuts address value tx.id tx.vout.enum all m with
    | (all2, m2, true) => (all2, m2)
    | (all2, m2, false) => fsoTxs address value rest all2 m2

/-- Blockchain::find_spendable_outputs: greedy first-fit accumulation over
the unspent transactions in scan order. -/
def find_spendable_outputs (shaO ripemdO : List Nat → List Nat) (fuel : Nat) (bc : Blockchain)
    (address : List Nat) (value : Nat) :
    Nat × List (List Nat × List Nat) × Blockchain :=
  match find_unspent_txs shaO ripemdO fuel bc address with
  | (txs, bc2) =>
    match fsoTxs address value txs 0 [] with
    | (all, m) => (all, m, bc2)

/-- sled insert: replace the value under an existing key, else append. -/
def storeInsert (m : List (List Nat × Block)) (k : List Nat) (b : Block) :
    List (List Nat × Block) :=
  if (m.find? (fun p => p.1 == k)).isSome then
    m.map (fun p => if p.1 == k then (k, b) else p)
  else m ++ [(k, b)]

/-- Block::new at the chain level: stamp the time, store payload and link,
then mine; mining is the oracle applied to the unmined block, exactly the
Option the proof-of-work engine returns. On success store hash and nonce
together; on failure leave both absent. -/
def Block.new (mineO : Block → Option (Nat × List Nat)) (now : Nat)
    (transactions : List Transaction) (previous_block_hash : Option (List Nat)) : Block :=
  match mineO { timestamp := now, transactions := transactions,
                previous_block_hash := previous_block_hash, hash := none, nonce := none } with
  | some (n, h) =>
    { timestamp := now, transactions := transactions,
      previous_block_hash := previous_block_hash, hash := some h, nonce := some n }
  | none =>
    { timestamp := now, transactions := transactions,
      previous_block_hash := previous_block_hash, hash := none, nonce := none }

/-- Blockchain::add_block: read the tip marker, build and mine a block linked
to it; only if mining produced a hash, store the block under its hash,
advance the tip marker and the in-memory tip. -/
def add_block (mineO : Block → Option (Nat × List Nat)) (now : Nat) (bc : Blockchain)
    (data : List Transaction) : Blockchain :=
  match (Block.new mineO now data bc.lval).hash with
  | some hsh =>
    { tip := hsh, blocks := storeInsert bc.blocks hsh (Block.new mineO now data bc.lval),
      lval := some hsh }
  | none => bc

/-- Blockchain::remove_blocks: Tree::iter yields every key of the tree,
including the tip-marker key l, and each is removed; the tree ends empty in
both components. The in-memory tip field is not touched. -/
def remove_blocks (bc : Blockchain) : Blockchain :=
  { bc with blocks := [], lval := none }

/-- Transaction::new_tx: resolve the sender's wallet (none models the
wallet-not-found panic), accumulate spendable outputs (none models the
not-enough-coins panic when they fall short), build one input per selected
output, one output to the recipient, and a change output only when the
accumulated total strictly exceeds the value. The transaction id digest is
the txIdO oracle over the finalized inputs and outputs. -/
def new_tx (shaO ripemdO : List Nat → List Nat) (wallets : List Nat → Option Wallet)
    (txIdO : List TXInput → List TXOutput → List Nat)
    (toAddr fromAddr : List Nat) (value : Nat) (fuel : Nat) (bc : Blockchain) :
    Option (Transaction × Blockchain) :=
  match wallets fromAddr with
  | none => none
  | some w =>
    match find_spendable_outputs shaO ripemdO fuel bc
        (hash_pub_key shaO ripemdO w.public_key) value with
    | (all, valid_outputs, bc2) =>
      if all < value then none
      else
        match lockBytes toAddr with
        | none => none
        | some hto =>
          if value < all then
            match lockBytes fromAddr with
            | none => none
            | some hfrom =>
              some ({ id := txIdO
                        (valid_outputs.flatMap (fun p => p.2.map (fun idx =>
                          { txid := p.1, vout := some idx, signature := [],
                            pub_key := w.public_key })))
                        [{ value := value, pub_key_hash := hto },
                         { value := all - value, pub_key_hash := hfrom }],
                      vin := valid_outputs.flatMap (fun p => p.2.map (fun idx =>
                        { txid := p.1, vout := some idx, signature := [],
                          pub_key := w.public_key })),
                      vout := [{ value := value, pub_key_hash := hto },
                               { value := all - value, pub_key_hash := hfrom }] }, bc2)
          else
            some ({ id := txIdO
                      (valid_outputs.flatMap (fun p => p.2.map (fun idx =>
                        { txid := p.1, vout := some idx, signature := [],
                          pub_key := w.public_key })))
                      [{ value := value, pub_key_hash := hto }],
                    vin := valid_outputs.flatMap (fun p => p.2.map (fun idx =>
                      { txid := p.1, vout := some idx, signature := [],
                        pub_key := w.public_key })),
                    vout := [{ value := value, pub_key_hash := hto }] }, bc2)

/-- Blockchain::send: build the transfer transaction, then append a block
holding it; a panic inside new_tx aborts before add_block runs. -/
def send (shaO ripemdO : List Nat → List Nat) (wallets : List Nat → Option Wallet)
    (txIdO : List TXInput → List TXOutput → List Nat)
    (mineO : Block → Option (Nat × List Nat)) (now : Nat)
    (fromAddr toAddr : List Nat) (value : Nat) (fuel : Nat) (bc : Blockchain) :
    Option Blockchain :=
  (new_tx shaO ripemdO wallets txIdO toAddr fromAddr value fuel bc).map
    (fun p => add_block mineO now p.2 [p.1])

/-- Digest oracle returning the all-zero digest, below target for any input. -/
def shaZeros : List Nat → List Nat := fun _ => List.replicate 32 0

/-- Digest oracle returning the all-255 digest, at or above target for any
input. -/
def shaOnes : List Nat → List Nat := fun _ => List.replicate 32 255

/-- Digest oracle succeeding only on the pre-mining serialization of the
empty-content block at nonce 0. -/
def shaC1 : List Nat → List Nat := fun d =>
  if d = PoW.prepare_data (PoW.serializeBlockB { content := [], hash := none, nonce := none }) 0
  then List.replicate 32 0 else List.replicate 32 255

/-- C1: the claim states that every successfully mined block passes validate
and that the recomputed digest is below 2 ^ 232. ProofOfWork::prepare_data
serializes the whole block, hash and nonce fields included; mining runs with
both fields none, but validate re-serializes the block after Block::new has
stored the mined hash and nonce, so validate hashes different bytes than
mining checked. At this concrete input mining succeeds at nonce 0 with the
all-zero digest, yet validate on the resulting block returns false. -/
theorem C1_mined_block_fails_validate :
    (PoW.BlockB.new shaC1 []).nonce = some 0 ∧
    (PoW.BlockB.new shaC1 []).hash = some (List.replicate 32 0) ∧
    PoW.validate shaC1 (PoW.BlockB.new shaC1 []) = false := by decide

/-- A block differing from blockHashB only in the stored hash field. -/
def blockHashA : PoW.BlockB := { content := [], hash := some [7], nonce := some 0 }

/-- A block differing from blockHashA only in the stored hash field. -/
def blockHashB : PoW.BlockB := { content := [], hash := some [8], nonce := some 0 }

/-- Digest oracle succeeding exactly on the serialization of blockHashA at
nonce 0. -/
def shaC4 : List Nat → List Nat := fun d =>
  if d = PoW.prepare_data (PoW.serializeBlockB blockHashA) 0
  then List.replicate 32 0 else List.replicate 32 255

/-- C4 counterexample: two blocks that differ only in their stored hash field
on which validate returns different results, because the stored hash field is
part of the serialized bytes validate feeds to the digest. -/
theorem C4_counterexample :
    blockHashA.content = blockHashB.content ∧ blockHashA.nonce = blockHashB.nonce ∧
    blockHashA.hash ≠ blockHashB.hash ∧
    PoW.validate shaC4 blockHashA = true ∧
    PoW.validate shaC4 blockHashB = false := by decide

/-- C4 amended: validate never compares the stored hash to the recomputed
digest, but it is only insensitive to differences that leave the serialized
block bytes unchanged: validate is a function of the serialized bytes and the
stored nonce. -/
theorem C4_amended (sha : List Nat → List Nat) (b1 b2 : PoW.BlockB)
    (hser : PoW.serializeBlockB b1 = PoW.serializeBlockB b2)
    (hnonce : b1.nonce = b2.nonce) :
    PoW.validate sha b1 = PoW.validate sha b2 := by
  unfold PoW.validate
  rw [hser, hnonce]

/-- A block whose serialization coincides with that of blockSerB although the
two differ in the hash field. -/
def blockSerA : PoW.BlockB := { content := [1, 0, 0, 0, 0, 0, 0, 0], hash := none, nonce := none }

/-- A block whose serialization coincides with that of blockSerA although the
two differ in the hash field. -/
def blockSerB : PoW.BlockB := { content := [], hash := some [], nonce := none }

theorem C4_witness : PoW.validate shaC4 blockSerA = PoW.validate shaC4 blockSerB :=
  C4_amended shaC4 blockSerA blockSerB (by decide) rfl

/-- Digest oracle that succeeds exactly when the trailing 8 bytes of the
hashed data are the big-endian bytes of u64::MAX, that is, exactly at the one
nonce the mining loop never tries. -/
def shaC5 : List Nat → List Nat := fun d =>
  if beBytesToNat (d.drop (d.length - 8)) = PoW.U64MAX then List.replicate 32 0
  else List.replicate 32 255

theorem prep_nil_drop (k : Nat) :
    (PoW.prepare_data [] k).drop ((PoW.prepare_data [] k).length - 8) = PoW.u64be k := by
  have h24 : PoW.u64be PoW.TARGET_BITS = [0, 0, 0, 0, 0, 0, 0, 24] := by decide
  have hlen : (PoW.u64be k).length = 8 := by simp [PoW.u64be]
  simp [PoW.prepare_data, h24, hlen, List.drop_succ_cons]

theorem shaC5_small (n : Nat) (hn : n < PoW.U64MAX) :
    shaC5 (PoW.prepare_data [] n) = List.replicate 32 255 := by
  simp only [shaC5]
  rw [prep_nil_drop n, PoW.beBytesToNat_u64be]
  rw [if_neg]
  have : PoW.U64MAX = 18446744073709551615 := rfl
  omega

/-- C5 counterexample: under this oracle the nonce u64::MAX is successful
(its digest is below target), so a successful nonce exists in the 64-bit
space, yet run returns none: the loop condition nonce < u64::MAX means the
nonce u64::MAX itself is never tried. -/
theorem C5_counterexample :
    beBytesToNat (shaC5 (PoW.prepare_data [] PoW.U64MAX)) < PoW.target ∧
    PoW.run shaC5 [] = none := by
  constructor
  · decide
  · apply PoW.run_none
    intro n hn
    rw [shaC5_small n hn]
    decide

/-- C5 amended: mining searches nonces sequentially from 0 but only strictly
below u64::MAX. It returns the smallest successful nonce of that range
together with its digest, and returns none when every nonce strictly below
u64::MAX fails, even if nonce u64::MAX itself would succeed. -/
theorem C5_amended :
    (∀ (sha : List Nat → List Nat) (bb : List Nat) (n : Nat),
      n < PoW.U64MAX →
      beBytesToNat (sha (PoW.prepare_data bb n)) < PoW.target →
      (∀ m < n, ¬ beBytesToNat (sha (PoW.prepare_data bb m)) < PoW.target) →
      PoW.run sha bb = some (n, sha (PoW.prepare_data bb n))) ∧
    (∀ (sha : List Nat → List Nat) (bb : List Nat),
      (∀ n < PoW.U64MAX, ¬ beBytesToNat (sha (PoW.prepare_data bb n)) < PoW.target) →
      PoW.run sha bb = none) :=
  ⟨fun sha bb n h1 hn hmin => PoW.run_min sha bb n h1 hn hmin,
   fun sha bb h => PoW.run_none sha bb h⟩

theorem C5_witness :
    PoW.run shaZeros [] = some (0, shaZeros (PoW.prepare_data [] 0)) ∧
    PoW.run shaOnes [] = none :=
  ⟨C5_amended.1 shaZeros [] 0 (by decide) (by decide)
      (fun m hm => absurd hm (Nat.not_lt_zero m)),
   C5_amended.2 shaOnes []
      (fun n _ => by
        show ¬ beBytesToNat (List.replicate 32 255) < PoW.target
        decide)⟩

/-- C6: locking an output with a wallet's address (base-58 decode, strip the
version byte and the 4 checksum bytes) stores exactly the wallet's public-key
hash, so is_locked_with that hash is true. Holds for any digest oracles that
produce byte values below 256 and 32-byte SHA output. -/
theorem C6_address_lock_roundtrip (shaO ripemdO : List Nat → List Nat)
    (hsha : ∀ d, ∀ x ∈ shaO d, x < 256)
    (hshalen : ∀ d, (shaO d).length = 32)
    (hrip : ∀ d, ∀ x ∈ ripemdO d, x < 256)
    (w : Wallet) (o : TXOutput) :
    TXOutput.lock o (Wallet.address shaO ripemdO w) =
      some { o with pub_key_hash := hash_pub_key shaO ripemdO w.public_key } ∧
    TXOutput.is_locked_with
      { o with pub_key_hash := hash_pub_key shaO ripemdO w.public_key }
      (hash_pub_key shaO ripemdO w.public_key) = true := by
  refine ⟨?_, by simp [TXOutput.is_locked_with]⟩
  set hp := hash_pub_key shaO ripemdO w.public_key with hhp
  set c4 := (shaO (shaO (0 :: hp))).take 4 with hc4
  have hvb : ∀ x ∈ (0 :: hp) ++ c4, x < 256 := by
    intro x hx
    rcases List.mem_append.mp hx with hx1 | hx2
    · rcases List.mem_cons.mp hx1 with hx0 | hxh
      · omega
      · exact hrip _ x hxh
    · exact hsha _ x (List.take_subset _ _ hx2)
  have hrt : b58decode (b58encode ((0 :: hp) ++ c4)) = some ((0 :: hp) ++ c4) :=
    b58_roundtrip _ hvb
  have hc4len : c4.length = 4 := by
    rw [hc4, List.length_take, hshalen]
    rfl
  have hlen : ((0 :: hp) ++ c4).length = hp.length + 5 := by
    simp [hc4len]
  have haddr : Wallet.address shaO ripemdO w = b58encode ((0 :: hp) ++ c4) := rfl
  have hlb : lockBytes (Wallet.address shaO ripemdO w) = some hp := by
    rw [haddr]
    simp only [lockBytes, hrt]
    rw [if_pos (by omega : 5 ≤ ((0 :: hp) ++ c4).length)]
    have hdrop : ((0 :: hp) ++ c4).drop 1 = hp ++ c4 := by
      rw [List.cons_append, List.drop_succ_cons, List.drop_zero]
    rw [hdrop, hlen]
    have : hp.length + 5 - 5 = hp.length := by omega
    rw [this, List.take_left]
  rw [TXOutput.lock, hlb]
  rfl

/-- Constant 32-byte SHA oracle for witnesses. -/
def shaConst : List Nat → List Nat := fun _ => List.replicate 32 1

/-- Constant 20-byte RIPEMD oracle for witnesses. -/
def ripemdConst : List Nat → List Nat := fun _ => List.replicate 20 2

theorem C6_witness :
    TXOutput.lock { value := 0, pub_key_hash := [] }
      (Wallet.address shaConst ripemdConst { public_key := [], private_key := [] }) =
      some { value := 0, pub_key_hash :=
        hash_pub_key shaConst ripemdConst ([] : List Nat) } ∧
    TXOutput.is_locked_with
      { value := 0, pub_key_hash := hash_pub_key shaConst ripemdConst ([] : List Nat) }
      (hash_pub_key shaConst ripemdConst ([] : List Nat)) = true :=
  C6_address_lock_roundtrip shaConst ripemdConst
    (fun d x hx => by
      have : x = 1 := (List.eq_of_mem_replicate hx)
      omega)
    (fun d => rfl)
    (fun d x hx => by
      have : x = 2 := (List.eq_of_mem_replicate hx)
      omega)
    { public_key := [], private_key := [] }
    { value := 0, pub_key_hash := [] }

/-- The empty chain state: empty tip buffer, empty tree, no tip marker. -/
def bcEmpty : Blockchain := { tip := [], blocks := [], lval := none }

/-- C7: when mining the new block fails (the oracle returns none, so the
block's hash and nonce stay absent), add_block writes nothing to the store,
leaves the tip marker untouched and leaves the in-memory tip unchanged: the
whole chain state is returned as it was. -/
theorem C7_failed_mining_add_block_noop (mineO : Block → Option (Nat × List Nat))
    (now : Nat) (bc : Blockchain) (data : List Transaction)
    (hfail : mineO { timestamp := now, transactions := data,
                     previous_block_hash := bc.lval, hash := none, nonce := none } = none) :
    add_block mineO now bc data = bc := by
  rw [add_block, Block.new, hfail]

theorem C7_witness : add_block (fun _ => none) 0 bcEmpty [] = bcEmpty :=
  C7_failed_mining_add_block_noop (fun _ => none) 0 bcEmpty [] rfl

/-- A one-block chain whose tip marker holds the stored block's hash. -/
def bc3 : Blockchain :=
  { tip := [1],
    blocks := [([1], { timestamp := 0, transactions := [],
                       previous_block_hash := none, hash := some [1], nonce := some 0 })],
    lval := some [1] }

/-- C3 counterexample: the claim says the tip marker key survives erase_all
and still holds the prior tip hash; but Tree::iter yields every key of the
blocks tree, the tip marker key l included, so remove_blocks deletes it too. -/
theorem C3_counterexample :
    bc3.lval = some [1] ∧ (remove_blocks bc3).lval = none := ⟨rfl, rfl⟩

/-- C3 amended: remove_blocks removes every key of the tree, the stored block
records and the tip marker key alike, leaving the tree empty; only the
in-memory tip field keeps its prior value. -/
theorem C3_amended (bc : Blockchain) :
    (remove_blocks bc).blocks = [] ∧ (remove_blocks bc).lval = none ∧
    (remove_blocks bc).tip = bc.tip := ⟨rfl, rfl, rfl⟩

/-- Identity byte oracle; the scans below only hold coinbase transactions or
inputless transactions, whose processing never consults the digests. -/
def idf : List Nat → List Nat := fun l => l

/-- A coinbase transaction paying 10 units to the owner bytes [5]. -/
def cbTx : Transaction :=
  { id := [9], vin := [{ txid := [], vout := none, signature := [], pub_key := [7] }],
    vout := [{ value := 10, pub_key_hash := [5] }] }

/-- A one-block chain holding cbTx, tip marker and tip at the block's hash. -/
def bcOne : Blockchain :=
  { tip := [1],
    blocks := [([1], { timestamp := 0, transactions := [cbTx],
                       previous_block_hash := none, hash := some [1], nonce := some 0 })],
    lval := some [1] }

/-- C2 counterexample: find_utxo advances the in-memory tip as it iterates,
so the second of two back-to-back calls starts from the consumed (empty) tip
and returns the empty list, while the first returns the owner's output. -/
theorem C2_counterexample :
    (find_utxo idf idf 2 bcOne [5]).1 = [{ value := 10, pub_key_hash := [5] }] ∧
    (find_utxo idf idf 2 (find_utxo idf idf 2 bcOne [5]).2 [5]).1 = [] ∧
    ([{ value := 10, pub_key_hash := [5] }] : List TXOutput) ≠ [] := by decide

/-- C2 amended: find_utxo is not idempotent. The scan consumes the in-memory
tip, and once a first call has run the iterator to exhaustion (its final
state has no next block), a repeated call returns the empty list, whatever
the first call returned. -/
theorem C2_amended (shaO ripemdO : List Nat → List Nat) (bc : Blockchain)
    (address : List Nat) (f1 f2 : Nat)
    (hdone : bcNext (find_utxo shaO ripemdO f1 bc address).2 = none) :
    (find_utxo shaO ripemdO f2 (find_utxo shaO ripemdO f1 bc address).2 address).1 = [] := by
  set bc2 := (find_utxo shaO ripemdO f1 bc address).2 with hbc2
  have hfu : find_unspent_txs shaO ripemdO f2 bc2 address = ([], bc2) := by
    rw [find_unspent_txs]
    cases f2 with
    | zero => rfl
    | succ f => rw [futLoop, hdone]
  simp only [find_utxo, hfu]
  rfl

theorem C2_witness :
    (find_utxo idf idf 3 (find_utxo idf idf 2 bcOne [5]).2 [5]).1 = [] :=
  C2_amended idf idf bcOne [5] 2 3 (by decide)

theorem bcNext_frame {bc : Blockchain} {b : Block} {bc2 : Blockchain}
    (h : bcNext bc = some (b, bc2)) :
    bc2.blocks = bc.blocks ∧ bc2.lval = bc.lval := by
  rw [bcNext] at h
  cases hfind : bc.blocks.find? (fun p => p.1 == bc.tip) with
  | none => rw [hfind] at h; exact Option.noConfusion h
  | some p =>
    rw [hfind] at h
    injection h with h2
    injection h2 with h3 h4
    subst h4
    exact ⟨rfl, rfl⟩

theorem futLoop_frame (shaO ripemdO : List Nat → List Nat) (address : List Nat) :
    ∀ fuel (bc : Blockchain) spent acc,
    (futLoop shaO ripemdO address fuel bc spent acc).2.blocks = bc.blocks ∧
    (futLoop shaO ripemdO address fuel bc spent acc).2.lval = bc.lval := by
  intro fuel
  induction fuel with
  | zero => intro bc spent acc; exact ⟨rfl, rfl⟩
  | succ f ih =>
    intro bc spent acc
    cases hnext : bcNext bc with
    | none =>
      have heq : futLoop shaO ripemdO address (f + 1) bc spent acc = (acc, bc) := by
        simp only [futLoop, hnext]
      rw [heq]
      exact ⟨rfl, rfl⟩
    | some pb =>
      rcases pb with ⟨b, bc2⟩
      obtain ⟨hb, hl⟩ := bcNext_frame hnext
      rcases htx : txLoop shaO ripemdO address (blockStop b) b.transactions spent acc
        with ⟨s2, a2⟩
      have heq : futLoop shaO ripemdO address (f + 1) bc spent acc =
          futLoop shaO ripemdO address f bc2 s2 a2 := by
        simp only [futLoop, hnext, htx]
      rw [heq]
      obtain ⟨ihb, ihl⟩ := ih bc2 s2 a2
      exact ⟨ihb.trans hb, ihl.trans hl⟩

theorem find_spendable_snd (shaO ripemdO : List Nat → List Nat) (fuel : Nat)
    (bc : Blockchain) (address : List Nat) (value : Nat) :
    (find_spendable_outputs shaO ripemdO fuel bc address value).2.2 =
      (find_unspent_txs shaO ripemdO fuel bc address).2 := by
  rcases h1 : find_unspent_txs shaO ripemdO fuel bc address with ⟨txs, bc2⟩
  simp only [find_spendable_outputs, h1]

/-- C8: when the accumulated spendable outputs of the sender fall strictly
short of the requested value, new_tx aborts (the not-enough-coins panic,
modelled as none) without constructing a transaction; send therefore never
reaches add_block, and the scan that preceded the abort changed neither the
stored block records nor the tip marker, so the chain is unchanged. -/
theorem C8_insufficient_funds_aborts
    (shaO ripemdO : List Nat → List Nat) (wallets : List Nat → Option Wallet)
    (txIdO : List TXInput → List TXOutput → List Nat)
    (mineO : Block → Option (Nat × List Nat)) (now : Nat)
    (toAddr fromAddr : List Nat) (value fuel : Nat) (bc : Blockchain) (w : Wallet)
    (hw : wallets fromAddr = some w)
    (hins : (find_spendable_outputs shaO ripemdO fuel bc
      (hash_pub_key shaO ripemdO w.public_key) value).1 < value) :
    new_tx shaO ripemdO wallets txIdO toAddr fromAddr value fuel bc = none ∧
    send shaO ripemdO wallets txIdO mineO now fromAddr toAddr value fuel bc = none ∧
    (find_spendable_outputs shaO ripemdO fuel bc
      (hash_pub_key shaO ripemdO w.public_key) value).2.2.blocks = bc.blocks ∧
    (find_spendable_outputs shaO ripemdO fuel bc
      (hash_pub_key shaO ripemdO w.public_key) value).2.2.lval = bc.lval := by
  have hnone : new_tx shaO ripemdO wallets txIdO toAddr fromAddr value fuel bc = none := by
    rcases hfs : find_spendable_outputs shaO ripemdO fuel bc
      (hash_pub_key shaO ripemdO w.public_key) value with ⟨all, m, bc2⟩
    rw [hfs] at hins
    simp only [new_tx, hw, hfs]
    rw [if_pos hins]
  refine ⟨hnone, by simp [send, hnone], ?_, ?_⟩
  · rw [find_spendable_snd]
    exact (futLoop_frame shaO ripemdO _ fuel bc [] []).1
  · rw [find_spendable_snd]
    exact (futLoop_frame shaO ripemdO _ fuel bc [] []).2

theorem C8_witness :
    new_tx idf idf (fun _ => some { public_key := [], private_key := [] })
      (fun _ _ => []) [] [] 1 1 bcEmpty = none ∧
    send idf idf (fun _ => some { public_key := [], private_key := [] })
      (fun _ _ => []) (fun _ => none) 0 [] [] 1 1 bcEmpty = none ∧
    (find_spendable_outputs idf idf 1 bcEmpty
      (hash_pub_key idf idf ([] : List Nat)) 1).2.2.blocks = bcEmpty.blocks ∧
    (find_spendable_outputs idf idf 1 bcEmpty
      (hash_pub_key idf idf ([] : List Nat)) 1).2.2.lval = bcEmpty.lval :=
  C8_insufficient_funds_aborts idf idf _ _ _ 0 [] [] 1 1 bcEmpty
    { public_key := [], private_key := [] } rfl (by decide)

theorem fsoOuts_zero (address txid : List Nat) :
    ∀ (l : List (Nat × TXOutput)) (m : List (List Nat × List Nat)),
    fsoOuts address 0 txid l 0 m = (0, m, false) := by
  intro l
  induction l with
  | nil => intro m; rfl
  | cons p rest ih =>
    intro m
    rcases p with ⟨idx, o⟩
    have hcond : (o.can_be_unlocked_with address && decide ((0 : Nat) < 0)) = false := by
      simp
    rw [fsoOuts, hcond]
    simp only [Bool.false_eq_true, if_false]
    exact ih m

theorem fsoTxs_zero (address : List Nat) :
    ∀ (txs : List Transaction) (m : List (List Nat × List Nat)),
    fsoTxs address 0 txs 0 m = (0, m) := by
  intro txs
  induction txs with
  | nil => intro m; rfl
  | cons tx rest ih =>
    intro m
    simp only [fsoTxs, fsoOuts_zero address tx.id tx.vout.enum m]
    exact ih m

/-- C10: a zero-value transfer never trips the insufficient-funds check:
find_spendable_outputs accumulates nothing (total 0, empty selection) because
its guard requires the running total to stay below the requested value, and
the constructed transaction has no inputs and exactly one output of value 0
locked to the recipient; no change output is added since the total does not
exceed the value. -/
theorem C10_zero_value_transfer (shaO ripemdO : List Nat → List Nat)
    (wallets : List Nat → Option Wallet) (txIdO : List TXInput → List TXOutput → List Nat)
    (toAddr fromAddr : List Nat) (fuel : Nat) (bc : Blockchain) (w : Wallet)
    (hto : List Nat) (hw : wallets fromAddr = some w)
    (hlock : lockBytes toAddr = some hto) :
    (find_spendable_outputs shaO ripemdO fuel bc
      (hash_pub_key shaO ripemdO w.public_key) 0).1 = 0 ∧
    (find_spendable_outputs shaO ripemdO fuel bc
      (hash_pub_key shaO ripemdO w.public_key) 0).2.1 = [] ∧
    new_tx shaO ripemdO wallets txIdO toAddr fromAddr 0 fuel bc =
      some ({ id := txIdO [] [{ value := 0, pub_key_hash := hto }],
              vin := [], vout := [{ value := 0, pub_key_hash := hto }] },
            (find_spendable_outputs shaO ripemdO fuel bc
              (hash_pub_key shaO ripemdO w.public_key) 0).2.2) := by
  rcases h1 : find_unspent_txs shaO ripemdO fuel bc
    (hash_pub_key shaO ripemdO w.public_key) with ⟨txs, bc2⟩
  have hfs : find_spendable_outputs shaO ripemdO fuel bc
      (hash_pub_key shaO ripemdO w.public_key) 0 = (0, [], bc2) := by
    simp only [find_spendable_outputs, h1, fsoTxs_zero]
  refine ⟨by rw [hfs], by rw [hfs], ?_⟩
  rw [hfs]
  simp [new_tx, hw, hfs, hlock]

theorem C10_witness :
    (find_spendable_outputs idf idf 1 bcEmpty
      (hash_pub_key idf idf ([] : List Nat)) 0).1 = 0 ∧
    (find_spendable_outputs idf idf 1 bcEmpty
      (hash_pub_key idf idf ([] : List Nat)) 0).2.1 = [] ∧
    new_tx idf idf (fun _ => some { public_key := [], private_key := [] })
      (fun _ _ => [8]) [49, 49, 49, 49, 49] [] 0 1 bcEmpty =
      some ({ id := [8], vin := [], vout := [{ value := 0, pub_key_hash := [] }] },
            (find_spendable_outputs idf idf 1 bcEmpty
              (hash_pub_key idf idf ([] : List Nat)) 0).2.2) :=
  C10_zero_value_transfer idf idf _ _ [49, 49, 49, 49, 49] [] 1 bcEmpty
    { public_key := [], private_key := [] } [] rfl (by decide)

/-- Whether an enumerated output qualifies for a copy-push in
find_unspent_txs: not yet recorded as spent and unlockable by the owner. -/
def qualifies (address : List Nat) (spent : List (List Nat × List Nat)) (txid : List Nat)
    (p : Nat × TXOutput) : Bool :=
  !spentContains spent txid p.1 && p.2.can_be_unlocked_with address

theorem outLoop_replicate (address : List Nat) (tx : Transaction)
    (spent : List (List Nat × List Nat)) :
    ∀ (l : List (Nat × TXOutput)) (acc : List Transaction),
    outLoop address tx spent l acc =
      acc ++ List.replicate ((l.filter (qualifies address spent tx.id)).length) tx := by
  intro l
  induction l with
  | nil => intro acc; simp [outLoop]
  | cons p rest ih =>
    intro acc
    rcases p with ⟨idx, o⟩
    by_cases h1 : spentContains spent tx.id idx = true
    · have hq : qualifies address spent tx.id (idx, o) = false := by
        simp [qualifies, h1]
      rw [outLoop, if_pos h1, ih, List.filter_cons, hq]
      simp
    · have h1f : spentContains spent tx.id idx = false := by
        revert h1; cases spentContains spent tx.id idx <;> simp
      by_cases h2 : o.can_be_unlocked_with address = true
      · have hq : qualifies address spent tx.id (idx, o) = true := by
          simp [qualifies, h1f, h2]
      -- the push branch appends one copy and recurses on the grown accumulator
        rw [outLoop, if_neg h1, if_pos h2, ih, List.filter_cons, hq]
        simp [List.replicate_succ]
      · have h2f : o.can_be_unlocked_with address = false := by
          revert h2; cases o.can_be_unlocked_with address <;> simp
        have hq : qualifies address spent tx.id (idx, o) = false := by
          simp [qualifies, h2f]
        rw [outLoop, if_neg h1, if_neg h2, ih, List.filter_cons, hq]
        simp

theorem processTx_snd (shaO ripemdO : List Nat → List Nat) (address : List Nat)
    (tx : Transaction) (spent : List (List Nat × List Nat)) (acc : List Transaction) :
    (processTx shaO ripemdO address tx spent acc).2 =
      acc ++ List.replicate
        ((tx.vout.enum.filter (qualifies address spent tx.id)).length) tx :=
  outLoop_replicate address tx spent tx.vout.enum acc

theorem snd_mem_of_mem_enumFrom {α : Type} :
    ∀ (l : List α) (n : Nat) (p : Nat × α), p ∈ l.enumFrom n → p.2 ∈ l := by
  intro l
  induction l with
  | nil => intro n p hp; simp [List.enumFrom] at hp
  | cons a t ih =>
    intro n p hp
    rw [List.enumFrom] at hp
    rcases List.mem_cons.mp hp with h | h
    · subst h; exact List.mem_cons_self _ _
    · exact List.mem_cons_of_mem _ (ih (n + 1) p h)

/-- An inputless transaction carrying the given outputs. -/
def oneTx (txid : List Nat) (outs : List TXOutput) : Transaction :=
  { id := txid, vin := [], vout := outs }

/-- A mined genesis-style block holding one such transaction. -/
def oneBlock (h txid : List Nat) (outs : List TXOutput) : Block :=
  { timestamp := 0, transactions := [oneTx txid outs],
    previous_block_hash := none, hash := some h, nonce := some 0 }

/-- The one-block chain around oneBlock. -/
def oneBlockChain (h txid : List Nat) (outs : List TXOutput) : Blockchain :=
  { tip := h, blocks := [(h, oneBlock h txid outs)], lval := some h }

theorem bcNext_of_find_none {bc : Blockchain}
    (h : bc.blocks.find? (fun p => p.1 == bc.tip) = none) : bcNext bc = none := by
  rw [bcNext, h]

theorem bcNext_of_find_some {bc : Blockchain} {q : List Nat × Block}
    (h : bc.blocks.find? (fun p => p.1 == bc.tip) = some q) :
    bcNext bc = some (q.2, { bc with tip := match q.2.previous_block_hash with
                                            | some ph => ph
                                            | none => [] }) := by
  rw [bcNext, h]

theorem oneBlock_unspent (shaO ripemdO : List Nat → List Nat) (address h txid : List Nat)
    (outs : List TXOutput) (hne : h ≠ [])
    (hlock : ∀ o ∈ outs, o.pub_key_hash = address) :
    find_unspent_txs shaO ripemdO 2 (oneBlockChain h txid outs) address =
      (List.replicate outs.length (oneTx txid outs),
       { tip := [], blocks := [(h, oneBlock h txid outs)], lval := some h }) := by
  have hq : ∀ p ∈ (oneTx txid outs).vout.enum,
      qualifies address [] (oneTx txid outs).id p = true := by
    intro p hp
    have hmem : p.2 ∈ outs := snd_mem_of_mem_enumFrom outs 0 p hp
    have hpk : p.2.pub_key_hash = address := hlock p.2 hmem
    simp [qualifies, spentContains, mapGet, TXOutput.can_be_unlocked_with, hpk]
  have hcount : (((oneTx txid outs).vout.enum.filter
      (qualifies address [] (oneTx txid outs).id)).length) = outs.length := by
    rw [List.filter_eq_self.mpr hq]
    exact List.enum_length
  have hproc : processTx shaO ripemdO address (oneTx txid outs) [] [] =
      ([], List.replicate outs.length (oneTx txid outs)) := by
    have h2 := processTx_snd shaO ripemdO address (oneTx txid outs) [] []
    rw [hcount] at h2
    have h1 : (processTx shaO ripemdO address (oneTx txid outs) [] []).1 = [] := rfl
    exact Prod.ext h1 (by simpa using h2)
  have hstop : blockStop (oneBlock h txid outs) = false := rfl
  have htx : txLoop shaO ripemdO address false [oneTx txid outs] [] [] =
      ([], List.replicate outs.length (oneTx txid outs)) := by
    rw [txLoop, hproc]
    rfl
  have hfind1 : (oneBlockChain h txid outs).blocks.find?
      (fun p => p.1 == (oneBlockChain h txid outs).tip) = some (h, oneBlock h txid outs) := by
    show List.find? (fun p => p.1 == h) [(h, oneBlock h txid outs)] = _
    rw [List.find?_cons_of_pos]
    simp
  have hnext1 : bcNext (oneBlockChain h txid outs) = some (oneBlock h txid outs,
      { tip := [], blocks := [(h, oneBlock h txid outs)], lval := some h }) := by
    rw [bcNext_of_find_some hfind1]
    rfl
  have hnext2 :
      bcNext ({ tip := [], blocks := [(h, oneBlock h txid outs)], lval := some h } : Blockchain)
        = none := by
    apply bcNext_of_find_none
    show List.find? (fun p => p.1 == ([] : List Nat)) [(h, oneBlock h txid outs)] = none
    rw [List.find?_cons_of_neg, List.find?_nil]
    simp [hne]
  rw [find_unspent_txs]
  simp only [futLoop, hnext1, hstop, hnext2]
  rw [show (oneBlock h txid outs).transactions = [oneTx txid outs] from rfl, htx]

theorem count_flatMap_replicate (o : TXOutput) (txid : List Nat) (outs : List TXOutput) :
    ∀ k, ((List.replicate k (oneTx txid outs)).flatMap Transaction.vout).count o =
      k * outs.count o := by
  intro k
  induction k with
  | zero => simp
  | succ n ih =>
    rw [List.replicate_succ, List.flatMap_cons, List.count_append, ih]
    show outs.count o + n * outs.count o = (n + 1) * outs.count o
    ring

theorem sum_flatMap_replicate (txid : List Nat) (outs : List TXOutput) :
    ∀ k, (((List.replicate k (oneTx txid outs)).flatMap Transaction.vout).map
      TXOutput.value).sum = k * (outs.map TXOutput.value).sum := by
  intro k
  induction k with
  | zero => simp
  | succ n ih =>
    rw [List.replicate_succ, List.flatMap_cons, List.map_append, List.sum_append, ih]
    show (outs.map TXOutput.value).sum + n * (outs.map TXOutput.value).sum = _
    ring

theorem foldl_wrap_sum :
    ∀ (L : List TXOutput) (a : Nat), a < 18446744073709551616 →
    L.foldl (fun acc o => (o.value + acc) % 18446744073709551616) a =
      ((L.map TXOutput.value).sum + a) % 18446744073709551616 := by
  intro L
  induction L with
  | nil =>
    intro a ha
    simp [Nat.mod_eq_of_lt ha]
  | cons o rest ih =>
    intro a ha
    rw [List.foldl_cons, ih ((o.value + a) % 18446744073709551616) (by omega)]
    simp only [List.map_cons, List.sum_cons]
    omega

/-- C9: for a transaction with k outputs that are unlockable by the owner and
not yet recorded as spent, the scan pushes one full copy of the transaction
per such output, so the result holds the transaction k times; consequently
find_utxo counts every unlockable output of such a transaction k times and
balance_at multiplies its output total by k (shown on a one-block chain whose
k outputs are all locked to the owner). -/
theorem C9_duplicate_copies (shaO ripemdO : List Nat → List Nat) :
    (∀ (address : List Nat) (tx : Transaction) (spent : List (List Nat × List Nat))
        (acc : List Transaction),
      (processTx shaO ripemdO address tx spent acc).2 =
        acc ++ List.replicate
          ((tx.vout.enum.filter (qualifies address spent tx.id)).length) tx) ∧
    (∀ (address h txid : List Nat) (outs : List TXOutput), h ≠ [] →
      (∀ o ∈ outs, o.pub_key_hash = address) →
      (∀ o : TXOutput,
        (find_utxo shaO ripemdO 2 (oneBlockChain h txid outs) address).1.count o =
          outs.length * outs.count o) ∧
      (balance_at shaO ripemdO 2 (oneBlockChain h txid outs) address).1 =
        (outs.length * (outs.map TXOutput.value).sum) % 18446744073709551616) := by
  constructor
  · intro address tx spent acc
    exact processTx_snd shaO ripemdO address tx spent acc
  · intro address h txid outs hne hlock
    have hus := oneBlock_unspent shaO ripemdO address h txid outs hne hlock
    have hutxo : (find_utxo shaO ripemdO 2 (oneBlockChain h txid outs) address).1 =
        (List.replicate outs.length (oneTx txid outs)).flatMap Transaction.vout := by
      simp only [find_utxo, hus]
      rw [List.filter_eq_self.mpr]
      intro o ho
      have hoo : o ∈ outs := by
        rcases List.mem_flatMap.mp ho with ⟨tx, htx, hin⟩
        have he : tx = oneTx txid outs := List.eq_of_mem_replicate htx
        rw [he] at hin
        exact hin
      simp [TXOutput.can_be_unlocked_with, hlock o hoo]
    constructor
    · intro o
      rw [hutxo, count_flatMap_replicate]
    · have hb : (balance_at shaO ripemdO 2 (oneBlockChain h txid outs) address).1 =
          (find_utxo shaO ripemdO 2 (oneBlockChain h txid outs) address).1.foldl
            (fun acc o => (o.value + acc) % 18446744073709551616) 0 := by
        rcases hu : find_utxo shaO ripemdO 2 (oneBlockChain h txid outs) address
          with ⟨f, bcx⟩
        simp only [balance_at, hu]
      rw [hb, hutxo, foldl_wrap_sum _ 0 (by omega), sum_flatMap_replicate]
      simp

/-- Two distinct outputs locked to the owner bytes [5]. -/
def outsW : List TXOutput :=
  [{ value := 1, pub_key_hash := [5] }, { value := 2, pub_key_hash := [5] }]

theorem C9_witness :
    (find_utxo idf idf 2 (oneBlockChain [1] [9] outsW) [5]).1.count
        { value := 1, pub_key_hash := [5] } =
      outsW.length * outsW.count { value := 1, pub_key_hash := [5] } :=
  ((C9_duplicate_copies idf idf).2 [5] [1] [9] outsW (by decide) (by decide)).1
    { value := 1, pub_key_hash := [5] }

end RustChain
